import Mathlib

/-
Verification of the pathintegral-qmc Monte Carlo engines.

This file is a shallow embedding, over exact rational arithmetic, of the
annealing engines of the repository:

  piqmc/sa.pyx : Anneal, Anneal_parallel, Anneal_multispin (classical
                 simulated annealing, sequential / OpenMP-parallel /
                 64-replica multispin-encoded), and
  qmc.pyx      : QuantumMetropolisAccept, QuantumAnneal (path-integral
                 quantum annealing over Trotter slices).

Modelling conventions, fixed once for the whole file:

  * Machine floats become rationals; the C exponential is an explicit
    function parameter (called cexp, after the libc import in sa.pyx),
    so that every statement that needs a property of the exponential
    carries it as a hypothesis.
  * The random draws consumed by the kernels (crand()/RAND_MAX in
    sa.pyx, rng.uniform / rng.rand in qmc.pyx) are passed as streams
    indexed by a counter that advances once per spin visit; the
    permutations produced by rng.permutation are passed as streams of
    orders indexed by a sweep counter.  This models "a random source
    producing a fixed draw sequence".
  * numpy arrays become Lists; an out-of-range read yields the getD
    default and an out-of-range write is dropped (List.set is the
    identity out of range).  The one place where the source indexes out
    of range on purpose is the final unpacking loop of Anneal_multispin,
    whose index list is embedded separately (unpackIndices) so that its
    bound can be examined.
  * The 64-bit unsigned words of the multispin engine become naturals;
    the operations used on them (shift left, shift right, xor, bit
    test) never leave the 64-bit range when starting from packed input.
-/

/-- A concrete stand-in for the transcendental exp used by witness
instantiations only: it agrees with exp at 0, is at least 1 on
nonnegative arguments and lies in (0, 1] on nonpositive ones. -/
def expQ (x : ℚ) : ℚ := if 0 ≤ x then 1 + x else 1 / (1 - x)

/-- The sum written into ediff by the inner neighbor loop of Anneal
(sa.pyx lines 80-90): a self pair accumulates -2.0*svec[sidx]*jval, any
other pair accumulates -2.0*svec[sidx]*(jval*svec[spinidx]). -/
def annealEdiff (sv : List ℚ) (sidx : ℕ) (pairs : List (ℕ × ℚ)) : ℚ :=
  pairs.foldl (fun e p =>
    if p.1 = sidx then e + -2 * sv.getD sidx 0 * p.2
    else e + -2 * sv.getD sidx 0 * (p.2 * sv.getD p.1 0)) 0

/-- The Metropolis decision of Anneal (sa.pyx lines 91-95): flip when
ediff >= 0.0, otherwise when cexp(ediff/temp) > the uniform draw. -/
def annealAcceptB (cexp : ℚ → ℚ) (e T u : ℚ) : Bool :=
  decide (e ≥ 0) || decide (cexp (e / T) > u)

/-- One spin visit of Anneal: compute ediff over the spin's neighbor
list, then flip svec[sidx] in place (multiply by -1) when accepted. -/
def annealSpinStep (cexp : ℚ → ℚ) (nbs : List (List (ℕ × ℚ))) (T : ℚ)
    (sv : List ℚ) (sidx : ℕ) (u : ℚ) : List ℚ :=
  if annealAcceptB cexp (annealEdiff sv sidx (nbs.getD sidx [])) T u
  then sv.set sidx (sv.getD sidx 0 * -1) else sv

/-- One Monte Carlo sweep of Anneal over a visitation order, threading
the draw counter (second component). -/
def annealSweep (cexp : ℚ → ℚ) (nbs : List (List (ℕ × ℚ))) (T : ℚ)
    (draws : ℕ → ℚ) (order : List ℕ) (st : List ℚ × ℕ) : List ℚ × ℕ :=
  order.foldl
    (fun st sidx => (annealSpinStep cexp nbs T st.1 sidx (draws st.2), st.2 + 1))
    st

/-- One Monte Carlo step of Anneal: sweep in the order given by the
sweep counter (modelling the freshly reshuffled sidx_shuff), then
advance the sweep counter.  State: (svec, sweep counter, draw counter). -/
def annealMCStep (cexp : ℚ → ℚ) (nbs : List (List (ℕ × ℚ)))
    (orders : ℕ → List ℕ) (draws : ℕ → ℚ) (T : ℚ)
    (st : List ℚ × ℕ × ℕ) : List ℚ × ℕ × ℕ :=
  let r := annealSweep cexp nbs T draws (orders st.2.1) (st.1, st.2.2)
  (r.1, st.2.1 + 1, r.2)

/-- Anneal (sa.pyx lines 40-98): for each temperature of the schedule,
do mcsteps Monte Carlo sweeps, each over a fresh visitation order. -/
def Anneal (cexp : ℚ → ℚ) (sched : List ℚ) (mcsteps : ℕ) (sv : List ℚ)
    (nbs : List (List (ℕ × ℚ))) (orders : ℕ → List ℕ) (draws : ℕ → ℚ) :
    List ℚ :=
  (sched.foldl
    (fun st T =>
      (List.range mcsteps).foldl
        (fun st _ => annealMCStep cexp nbs orders draws T st) st)
    (sv, 0, 0)).1

/-- The per-spin energy difference written into ediffs[sidx] by
Anneal_parallel (sa.pyx lines 149-160); the accumulation is identical
in shape to the sequential one. -/
def parallelEdiff (sv : List ℚ) (sidx : ℕ) (pairs : List (ℕ × ℚ)) : ℚ :=
  pairs.foldl (fun e p =>
    if p.1 = sidx then e + -2 * sv.getD sidx 0 * p.2
    else e + -2 * sv.getD sidx 0 * (p.2 * sv.getD p.1 0)) 0

/-- The Metropolis decision of Anneal_parallel (sa.pyx lines 161-165):
flip when ediffs[sidx] > 0.0 (strict, unlike Anneal), otherwise when
cexp(ediffs[sidx]/temp) > the uniform draw. -/
def parallelAcceptB (cexp : ℚ → ℚ) (e T u : ℚ) : Bool :=
  decide (e > 0) || decide (cexp (e / T) > u)

/-- One spin visit of the prange body of Anneal_parallel. -/
def parallelSpinStep (cexp : ℚ → ℚ) (nbs : List (List (ℕ × ℚ))) (T : ℚ)
    (sv : List ℚ) (sidx : ℕ) (u : ℚ) : List ℚ :=
  if parallelAcceptB cexp (parallelEdiff sv sidx (nbs.getD sidx [])) T u
  then sv.set sidx (sv.getD sidx 0 * -1) else sv

/-- Anneal_parallel (sa.pyx lines 104-165).  The prange loop visits the
fixed index-ascending order 0..nspins-1 (nspins read once at entry);
the embedding serialises the loop body in that order, which is one
admissible interleaving of the racy OpenMP execution.  State threads a
draw counter exactly as the sequential engine does. -/
def Anneal_parallel (cexp : ℚ → ℚ) (sched : List ℚ) (mcsteps : ℕ)
    (sv : List ℚ) (nbs : List (List (ℕ × ℚ))) (draws : ℕ → ℚ) : List ℚ :=
  let nspins := sv.length
  (sched.foldl
    (fun st T =>
      (List.range mcsteps).foldl
        (fun st _ =>
          (List.range nspins).foldl
            (fun st sidx =>
              (parallelSpinStep cexp nbs T st.1 sidx (draws st.2), st.2 + 1))
            st)
        st)
    (sv, 0)).1

/-- The intra-slice part of the quantum energy difference
(qmc.pyx lines 55-64), identical in shape to the classical one. -/
def quantumNbEdiff (sv : List ℚ) (sidx : ℕ) (pairs : List (ℕ × ℚ)) : ℚ :=
  pairs.foldl (fun e p =>
    if p.1 = sidx then e + -2 * sv.getD sidx 0 * p.2
    else e + -2 * sv.getD sidx 0 * (p.2 * sv.getD p.1 0)) 0

/-- The periodic-boundary choice of the two Trotter neighbor slices
(qmc.pyx lines 65-74): (tleft, tright) as computed by the if chain. -/
def trotterNbs (P tidx : ℕ) : ℕ × ℕ :=
  if tidx = 0 then (P - 1, 1)
  else if tidx = P - 1 then (P - 2, 0)
  else (tidx - 1, tidx + 1)

/-- The full quantum energy difference (qmc.pyx lines 47-77): the
intra-slice sum plus -2*svec[sidx]*(jperp*tvec[tleft]) and
-2*svec[sidx]*(jperp*tvec[tright]). -/
def quantumEdiff (sv tvec : List ℚ) (sidx tidx : ℕ)
    (pairs : List (ℕ × ℚ)) (jperp : ℚ) : ℚ :=
  quantumNbEdiff sv sidx pairs
    + -2 * sv.getD sidx 0 * (jperp * tvec.getD (trotterNbs tvec.length tidx).1 0)
    + -2 * sv.getD sidx 0 * (jperp * tvec.getD (trotterNbs tvec.length tidx).2 0)

/-- The quantum Metropolis decision (qmc.pyx lines 78-84): accept when
ediff > 0.0 (strict), otherwise when np.exp(ediff/T) > the uniform
draw. -/
def quantumAcceptB (cexp : ℚ → ℚ) (e T u : ℚ) : Bool :=
  decide (e > 0) || decide (cexp (e / T) > u)

/-- QuantumMetropolisAccept (qmc.pyx lines 22-84) as a pure decision
function of the slice spin vector, the Trotter vector of the visited
spin, the indices, the neighbor pair list, jperp, T and the draw. -/
def QuantumMetropolisAccept (cexp : ℚ → ℚ) (sv tvec : List ℚ)
    (sidx tidx : ℕ) (pairs : List (ℕ × ℚ)) (jperp T u : ℚ) : Bool :=
  quantumAcceptB cexp (quantumEdiff sv tvec sidx tidx pairs jperp) T u

/-- One spin attempt of QuantumAnneal (qmc.pyx lines 127-136): the
configuration matrix has one row per spin and one column per Trotter
slice; the slice spin vector is column islice, the Trotter vector is
row ispin, and an accepted flip negates configurations[ispin, islice]
in place. -/
def qSpinStep (cexp : ℚ → ℚ) (nbs : List (List (ℕ × ℚ))) (jperp T : ℚ)
    (islice : ℕ) (conf : List (List ℚ)) (ispin : ℕ) (u : ℚ) :
    List (List ℚ) :=
  if QuantumMetropolisAccept cexp
      (conf.map (fun row => row.getD islice 0)) (conf.getD ispin [])
      ispin islice (nbs.getD ispin []) jperp T u
  then conf.set ispin
    ((conf.getD ispin []).set islice ((conf.getD ispin []).getD islice 0 * -1))
  else conf

/-- One Trotter-slice visit of QuantumAnneal: a sweep over a spin order
(a fresh permutation, drawn from the spin-order stream), threading the
draw counter.  State: (configuration, spin-order counter, draw counter). -/
def qSliceStep (cexp : ℚ → ℚ) (nbs : List (List (ℕ × ℚ)))
    (spinOrders : ℕ → List ℕ) (draws : ℕ → ℚ) (jperp T : ℚ)
    (st : List (List ℚ) × ℕ × ℕ) (islice : ℕ) : List (List ℚ) × ℕ × ℕ :=
  let r := (spinOrders st.2.1).foldl
    (fun s ispin => (qSpinStep cexp nbs jperp T islice s.1 ispin (draws s.2), s.2 + 1))
    (st.1, st.2.2)
  (r.1, st.2.1 + 1, r.2)

/-- One Monte Carlo step of QuantumAnneal: visit the Trotter slices in
the order given by the slice-order stream.  State: (configuration,
slice-order counter, spin-order counter, draw counter). -/
def qMCStep (cexp : ℚ → ℚ) (nbs : List (List (ℕ × ℚ)))
    (sliceOrders spinOrders : ℕ → List ℕ) (draws : ℕ → ℚ) (jperp T : ℚ)
    (st : List (List ℚ) × ℕ × ℕ × ℕ) : List (List ℚ) × ℕ × ℕ × ℕ :=
  let r := (sliceOrders st.2.1).foldl
    (qSliceStep cexp nbs spinOrders draws jperp T) (st.1, st.2.2.1, st.2.2.2)
  (r.1, st.2.1 + 1, r.2.1, r.2.2)

/-- QuantumAnneal (qmc.pyx lines 89-136): for each transverse field of
the schedule, recompute jperp = perpJOf field once (the transcendental
formula -0.5*P*T*log(tanh(field/(P*T))) is abstracted as the parameter
perpJOf, since the engine uses its value only inside the accept
decision) and do mcSteps Monte Carlo steps over freshly permuted slice
and spin orders. -/
def QuantumAnneal (cexp perpJOf : ℚ → ℚ) (sched : List ℚ) (mcSteps : ℕ)
    (T : ℚ) (conf : List (List ℚ)) (nbs : List (List (ℕ × ℚ)))
    (sliceOrders spinOrders : ℕ → List ℕ) (draws : ℕ → ℚ) :
    List (List ℚ) :=
  (sched.foldl
    (fun st field =>
      (List.range mcSteps).foldl
        (fun st _ =>
          qMCStep cexp nbs sliceOrders spinOrders draws (perpJOf field) T st)
        st)
    (conf, 0, 0, 0)).1

/-- getbit (sa.pyx lines 171-175): the k-th bit of the word s. -/
def getbit (s k : ℕ) : Bool := decide ((s >>> k) &&& 1 = 1)

/-- The energy difference accumulated into ediffs[k] for replica k by
the neighbor loop of Anneal_multispin (sa.pyx lines 237-261).  The k
iterations of the source's inner bit loops are independent, so the
entry k of the ediffs array equals this per-replica fold: a self pair
tests bit 63-k of svec[sidx] directly, any other pair tests bit 63-k of
svec[sidx] XOR svec[spinidx]; a clear bit (decoded spin or agreement
+1) contributes -2.0*jval and a set bit contributes +2.0*jval. -/
def msEdiff (svN : List ℕ) (sidx k : ℕ) (pairs : List (ℕ × ℚ)) : ℚ :=
  pairs.foldl (fun e p =>
    if p.1 = sidx then
      if getbit (svN.getD sidx 0) (63 - k) then e + 2 * p.2 else e - 2 * p.2
    else
      if getbit (svN.getD sidx 0 ^^^ svN.getD p.1 0) (63 - k)
      then e + 2 * p.2 else e - 2 * p.2) 0

/-- The acceptance bit of replica k in Anneal_multispin (sa.pyx line
264): np.exp(ediffs/temp) > rands, componentwise.  Note there is no
fast-accept branch for a nonnegative ediff in the multispin engine. -/
def msSign (cexp : ℚ → ℚ) (svN : List ℕ) (sidx : ℕ)
    (pairs : List (ℕ × ℚ)) (T : ℚ) (rand : ℕ → ℚ) (k : ℕ) : Bool :=
  decide (cexp (msEdiff svN sidx k pairs / T) > rand k)

/-- The flip mask built from the 64 acceptance bits (sa.pyx lines
266-273): seed with the bit for replica 0, then for k = 1..63 shift
left and xor in the bit for replica k, leaving replica k at bit 63-k. -/
def msFlipmask (sign : ℕ → Bool) : ℕ :=
  (List.range' 1 63).foldl
    (fun fm k => if sign k then (fm <<< 1) ^^^ 1 else fm <<< 1)
    (if sign 0 then 1 else 0)

/-- One spin visit of Anneal_multispin (sa.pyx lines 235-279): compute
the 64 acceptance bits from ediffs and the 64 fresh draws, build the
flip mask, and apply it with one xor to svec[sidx]. -/
def msSpinStep (cexp : ℚ → ℚ) (nbs : List (List (ℕ × ℚ))) (T : ℚ)
    (svN : List ℕ) (sidx : ℕ) (rand : ℕ → ℚ) : List ℕ :=
  svN.set sidx
    (svN.getD sidx 0 ^^^ msFlipmask (msSign cexp svN sidx (nbs.getD sidx []) T rand))

/-- One Monte Carlo sweep of Anneal_multispin over a visitation order;
the counter indexes the batches of 64 fresh draws (rng.rand(64) is
redrawn after every spin visit). -/
def msSweep (cexp : ℚ → ℚ) (nbs : List (List (ℕ × ℚ))) (T : ℚ)
    (rands : ℕ → ℕ → ℚ) (order : List ℕ) (st : List ℕ × ℕ) : List ℕ × ℕ :=
  order.foldl
    (fun st sidx => (msSpinStep cexp nbs T st.1 sidx (rands st.2), st.2 + 1))
    st

/-- One Monte Carlo step of Anneal_multispin, advancing the sweep
counter that indexes the reshuffled visitation orders. -/
def msMCStep (cexp : ℚ → ℚ) (nbs : List (List (ℕ × ℚ)))
    (orders : ℕ → List ℕ) (rands : ℕ → ℕ → ℚ) (T : ℚ)
    (st : List ℕ × ℕ × ℕ) : List ℕ × ℕ × ℕ :=
  let r := msSweep cexp nbs T rands (orders st.2.1) (st.1, st.2.2)
  (r.1, st.2.1 + 1, r.2)

/-- The annealing core of Anneal_multispin (sa.pyx lines 228-281), on
the packed word vector: same schedule / step / sweep structure as
Anneal. -/
def msAnnealRun (cexp : ℚ → ℚ) (sched : List ℚ) (mcsteps : ℕ)
    (svN : List ℕ) (nbs : List (List (ℕ × ℚ))) (orders : ℕ → List ℕ)
    (rands : ℕ → ℕ → ℚ) : List ℕ :=
  (sched.foldl
    (fun st T =>
      (List.range mcsteps).foldl
        (fun st _ => msMCStep cexp nbs orders rands T st) st)
    (svN, 0, 0)).1

/-- The entry packing of one spin's column (sa.pyx lines 221-227): for
each row k in order, shift left and set the low bit exactly when
svec_mat[k, si] is truthy, i.e. nonzero; so row k lands at bit 63-k of
the word when there are 64 rows. -/
def packWord (col : List ℚ) : ℕ :=
  col.foldl (fun w (x : ℚ) => if x ≠ 0 then (w <<< 1) ^^^ 1 else w <<< 1) 0

/-- Column si of the replica-by-spin matrix (svec_mat[:, si]). -/
def matColumn (mat : List (List ℚ)) (si : ℕ) : List ℚ :=
  mat.map (fun row => row.getD si 0)

/-- The packed word vector svec built at entry of Anneal_multispin:
one word per spin, nspins = svec_mat.shape[1]. -/
def packMat (mat : List (List ℚ)) (nspins : ℕ) : List ℕ :=
  (List.range nspins).map (fun si => packWord (matColumn mat si))

/-- Write value v into svec_mat[k, si]. -/
def setMat (mat : List (List ℚ)) (k si : ℕ) (v : ℚ) : List (List ℚ) :=
  mat.set k ((mat.getD k []).set si v)

/-- The index list of the final unpacking loop of Anneal_multispin
(sa.pyx line 283): for sidx in xrange(svec.size + 1) — note the bound
is one more than the number of packed words. -/
def unpackIndices (svN : List ℕ) : List ℕ := List.range (svN.length + 1)

/-- Unpacking one word into column sidx (sa.pyx lines 284-286): the
64-character binary string of svec[sidx] has character k equal to bit
63-k, and float(state[k]) writes 1.0 for a set bit and 0.0 for a clear
bit into svec_mat[k, sidx]. -/
def unpackWordInto (mat : List (List ℚ)) (w sidx : ℕ) : List (List ℚ) :=
  (List.range 64).foldl
    (fun m k => setMat m k sidx (if getbit w (63 - k) then 1 else 0)) mat

/-- The final unpacking loop of Anneal_multispin (sa.pyx lines
282-286), iterating over unpackIndices. -/
def unpackInto (mat : List (List ℚ)) (svN : List ℕ) : List (List ℚ) :=
  (unpackIndices svN).foldl
    (fun m sidx => unpackWordInto m (svN.getD sidx 0) sidx) mat

/-- Anneal_multispin (sa.pyx lines 182-286): pack the replica-by-spin
float matrix into one word per spin, run the multispin annealing core,
and unpack back into the caller's matrix. -/
def Anneal_multispin (cexp : ℚ → ℚ) (sched : List ℚ) (mcsteps : ℕ)
    (mat : List (List ℚ)) (nbs : List (List (ℕ × ℚ)))
    (orders : ℕ → List ℕ) (rands : ℕ → ℕ → ℚ) : List (List ℚ) :=
  let nspins := (mat.getD 0 []).length
  unpackInto mat (msAnnealRun cexp sched mcsteps (packMat mat nspins) nbs orders rands)

/-- Decoding of replica k from the packed representation: bit 63-k of
spin i's word, with a clear bit meaning spin +1 and a set bit meaning
spin -1 (the convention of the bit loops in sa.pyx lines 245-261). -/
def decodeBit (k : ℕ) (svN : List ℕ) : List ℚ :=
  svN.map (fun w => if getbit w (63 - k) then -1 else 1)

/-- The set of exact spin values of the classical and quantum engines. -/
def isPM1 (x : ℚ) : Prop := x = 1 ∨ x = -1

/-- The contribution of one neighbor pair to the energy difference of
flipping spin sidx: linear for a self pair, quadratic otherwise (the
loop body of sa.pyx lines 80-90 as a function of the pair). -/
def nbContrib (sv : List ℚ) (sidx : ℕ) (p : ℕ × ℚ) : ℚ :=
  if p.1 = sidx then -2 * sv.getD sidx 0 * p.2
  else -2 * sv.getD sidx 0 * (p.2 * sv.getD p.1 0)

/-- Specification-side form of the shift-and-set word builders of
Anneal_multispin: fold a list of bits into a word, most significant
first. -/
def buildWord (l : List Bool) : ℕ :=
  l.foldl (fun w b => if b then (w <<< 1) ^^^ 1 else w <<< 1) 0

instance (x : ℚ) : Decidable (isPM1 x) :=
  decidable_of_iff (x = 1 ∨ x = -1) Iff.rfl

/-- The loop body of the multispin neighbor loop as a function of the
pair: the amount added to ediffs[k] for one neighbor pair. -/
def msContrib (svN : List ℕ) (sidx k : ℕ) (p : ℕ × ℚ) : ℚ :=
  if p.1 = sidx then
    (if getbit (svN.getD sidx 0) (63 - k) then 2 * p.2 else -(2 * p.2))
  else
    (if getbit (svN.getD sidx 0 ^^^ svN.getD p.1 0) (63 - k)
     then 2 * p.2 else -(2 * p.2))

theorem foldl_rel {α β γ : Type*} (R : α → β → Prop) (f : α → γ → α)
    (g : β → γ → β) (h : ∀ a b c, R a b → R (f a c) (g b c)) :
    ∀ (l : List γ) (a : α) (b : β), R a b → R (l.foldl f a) (l.foldl g b) := by
  intro l
  induction l with
  | nil => intro a b hab; simpa using hab
  | cons c l ih =>
    intro a b hab
    simpa using ih (f a c) (g b c) (h a b c hab)

theorem foldl_inv {α γ : Type*} (P : α → Prop) (f : α → γ → α)
    (h : ∀ a c, P a → P (f a c)) :
    ∀ (l : List γ) (a : α), P a → P (l.foldl f a) := by
  intro l
  induction l with
  | nil => intro a ha; simpa using ha
  | cons c l ih => intro a ha; simpa using ih (f a c) (h a c ha)

theorem foldl_congr_id {α γ : Type*} (f : α → γ → α)
    (h : ∀ a c, f a c = a) : ∀ (l : List γ) (a : α), l.foldl f a = a := by
  intro l
  induction l with
  | nil => intro a; rfl
  | cons c l ih => intro a; rw [List.foldl_cons, h a c]; exact ih a

theorem getbit_eq_testBit (s k : ℕ) : getbit s k = Nat.testBit s k := by
  rw [getbit, Nat.testBit_to_div_mod, Nat.and_one_is_mod, Nat.shiftRight_eq_div_pow]

theorem getD_map {α β : Type*} (f : α → β) (l : List α) (i : ℕ) (d : β) (d' : α)
    (h : i < l.length) : (l.map f).getD i d = f (l.getD i d') := by
  rw [List.getD_eq_getElem?_getD, List.getD_eq_getElem?_getD, List.getElem?_map,
    List.getElem?_eq_getElem h]
  rfl

theorem getD_of_length_le {α : Type*} (l : List α) (i : ℕ) (d : α)
    (h : l.length ≤ i) : l.getD i d = d := by
  rw [List.getD_eq_getElem?_getD, List.getElem?_eq_none h]
  rfl

theorem set_getD_self {α : Type*} : ∀ (l : List α) (i : ℕ) (d : α),
    l.set i (l.getD i d) = l := by
  intro l
  induction l with
  | nil => intro i d; rfl
  | cons a l ih =>
    intro i d
    cases i with
    | zero => rfl
    | succ j => simpa using ih j d

theorem two_mul_xor_one (a : ℕ) : (2 * a) ^^^ 1 = 2 * a + 1 := by
  apply Nat.eq_of_testBit_eq
  intro i
  have h1 : (2 * a) / 2 = a := by omega
  have h2 : (2 * a + 1) / 2 = a := by omega
  have hm : (2 * a) % 2 = 0 := by omega
  have hm' : (2 * a + 1) % 2 = 1 := by omega
  cases i with
  | zero =>
    rw [Nat.testBit_xor]
    simp [hm, hm']
  | succ j =>
    rw [Nat.testBit_xor]
    have ht1 : Nat.testBit 1 (j + 1) = false := by
      simpa using Nat.testBit_two_pow_of_ne (n := 0) (m := j + 1) (by omega)
    rw [ht1, Bool.xor_false, Nat.testBit_add_one, Nat.testBit_add_one, h1, h2]

theorem buildStep_eq (a : ℕ) (b : Bool) :
    (if b then (a <<< 1) ^^^ 1 else a <<< 1) = 2 * a + (if b then 1 else 0) := by
  have hs : a <<< 1 = 2 * a := by rw [Nat.shiftLeft_eq]; ring
  cases b with
  | false => simp [hs]
  | true => simp [hs, two_mul_xor_one]

theorem buildWord_acc : ∀ (l : List Bool) (a : ℕ),
    l.foldl (fun w b => if b then (w <<< 1) ^^^ 1 else w <<< 1) a
      = a * 2 ^ l.length + buildWord l := by
  intro l
  induction l with
  | nil => intro a; simp [buildWord]
  | cons b l ih =>
    intro a
    have hb : buildWord (b :: l)
        = (if b then ((0:ℕ) <<< 1) ^^^ 1 else (0:ℕ) <<< 1) * 2 ^ l.length + buildWord l := by
      rw [buildWord, List.foldl_cons, ih]
    rw [List.foldl_cons, ih, hb, buildStep_eq, buildStep_eq]
    simp only [List.length_cons, Nat.pow_succ]
    ring

theorem buildWord_lt : ∀ l : List Bool, buildWord l < 2 ^ l.length := by
  intro l
  induction l with
  | nil => simp [buildWord]
  | cons b l ih =>
    rw [buildWord, List.foldl_cons, buildWord_acc, buildStep_eq]
    have h2 : (2:ℕ) ^ (b :: l).length = 2 ^ l.length + 2 ^ l.length := by
      simp only [List.length_cons, Nat.pow_succ]; ring
    rw [h2]
    have hb : (2 * 0 + (if b then 1 else 0) : ℕ) ≤ 1 := by cases b <;> simp
    have hmul : (2 * 0 + (if b then 1 else 0) : ℕ) * 2 ^ l.length ≤ 2 ^ l.length := by
      calc (2 * 0 + (if b then 1 else 0) : ℕ) * 2 ^ l.length
          ≤ 1 * 2 ^ l.length := Nat.mul_le_mul_right _ hb
        _ = 2 ^ l.length := by ring
    omega

theorem buildWord_testBit : ∀ (l : List Bool) (j : ℕ),
    (buildWord l).testBit j
      = (decide (j < l.length) && l.getD (l.length - 1 - j) false) := by
  intro l
  induction l with
  | nil => intro j; simp [buildWord]
  | cons b l ih =>
    intro j
    rw [buildWord, List.foldl_cons, buildWord_acc, buildStep_eq]
    have hshape : (2 * 0 + if b then 1 else 0 : ℕ) * 2 ^ l.length + buildWord l
        = 2 ^ l.length * (if b then 1 else 0) + buildWord l := by ring
    rw [hshape, Nat.testBit_mul_pow_two_add _ (buildWord_lt l) j]
    by_cases hj : j < l.length
    · have hidx : (b :: l).length - 1 - j = (l.length - 1 - j) + 1 := by
        simp only [List.length_cons]; omega
      rw [if_pos hj, ih j, hidx, List.getD_cons_succ]
      have hd1 : decide (j < l.length) = true := decide_eq_true hj
      have hd2 : decide (j < (b :: l).length) = true := by
        simp only [List.length_cons]; exact decide_eq_true (by omega)
      rw [hd1, hd2]
    · rw [if_neg hj]
      by_cases hj' : j = l.length
      · subst hj'
        have hidx : (b :: l).length - 1 - l.length = 0 := by
          simp only [List.length_cons]; omega
        rw [hidx, List.getD_cons_zero, Nat.sub_self]
        have hd : decide (l.length < (b :: l).length) = true := by
          simp only [List.length_cons]; exact decide_eq_true (by omega)
        rw [hd, Bool.true_and]
        cases b <;> simp
      · have hfalse : Nat.testBit (if b then 1 else 0) (j - l.length) = false := by
          cases b with
          | false => simp
          | true =>
            simp only [if_pos rfl]
            simpa using Nat.testBit_two_pow_of_ne (n := 0) (m := j - l.length) (by omega)
        have hd : decide (j < (b :: l).length) = false := by
          simp only [List.length_cons]; exact decide_eq_false (by omega)
        rw [hfalse, hd, Bool.false_and]

theorem foldl_congr_fun {α γ : Type*} (l : List γ) (f g : α → γ → α)
    (hfg : ∀ x y, f x y = g x y) : ∀ a : α, l.foldl f a = l.foldl g a := by
  induction l with
  | nil => intro a; rfl
  | cons c l ih => intro a; rw [List.foldl_cons, List.foldl_cons, hfg, ih]

theorem msFlipmask_eq (sign : ℕ → Bool) :
    msFlipmask sign = buildWord ((List.range 64).map sign) := by
  rw [msFlipmask, buildWord]
  rw [List.range_succ_eq_map 63, List.map_cons, List.foldl_cons, List.map_map]
  rw [List.foldl_map, List.range'_eq_map_range 1 63, List.foldl_map]
  have hinit : (if sign 0 then (1:ℕ) else 0)
      = (if sign 0 then ((0:ℕ) <<< 1) ^^^ 1 else (0:ℕ) <<< 1) := by
    cases hsg : sign 0 <;> simp
  rw [hinit]
  exact foldl_congr_fun _ _ _
    (fun w i => by simp only [Function.comp, Nat.succ_eq_add_one, Nat.add_comm 1 i]) _

theorem msFlipmask_testBit (sign : ℕ → Bool) (k : ℕ) (hk : k < 64) :
    Nat.testBit (msFlipmask sign) (63 - k) = sign k := by
  rw [msFlipmask_eq, buildWord_testBit]
  have hlen : ((List.range 64).map sign).length = 64 := by simp
  rw [hlen]
  have hidx : 64 - 1 - (63 - k) = k := by omega
  rw [hidx]
  have hj : decide ((63 - k) < 64) = true := decide_eq_true (by omega)
  rw [hj, Bool.true_and]
  rw [getD_map sign _ k false 0 (by simpa using hk)]
  congr 1
  rw [List.getD_eq_getElem?_getD, List.getElem?_range hk]
  rfl

theorem packWord_eq (col : List ℚ) :
    packWord col = buildWord (col.map (fun x => decide (x ≠ 0))) := by
  rw [packWord, buildWord, List.foldl_map]
  exact foldl_congr_fun _ _ _
    (fun w x => by by_cases h : x = 0 <;> simp [h]) _

theorem packWord_testBit (col : List ℚ) (k : ℕ) (hk : k < col.length) :
    Nat.testBit (packWord col) (col.length - 1 - k) = decide (col.getD k 0 ≠ 0) := by
  rw [packWord_eq, buildWord_testBit]
  have hlen : (col.map (fun x => decide (x ≠ 0))).length = col.length := by simp
  rw [hlen]
  have hidx : col.length - 1 - (col.length - 1 - k) = k := by omega
  rw [hidx]
  have hj : decide (col.length - 1 - k < col.length) = true :=
    decide_eq_true (by omega)
  rw [hj, Bool.true_and]
  rw [getD_map _ _ k false 0 hk]

theorem foldl_add_sum {γ : Type*} (c : γ → ℚ) : ∀ (l : List γ) (a : ℚ),
    l.foldl (fun e p => e + c p) a = a + (l.map c).sum := by
  intro l
  induction l with
  | nil => intro a; simp
  | cons p l ih => intro a; rw [List.foldl_cons, List.map_cons, List.sum_cons, ih]; ring

theorem annealEdiff_eq_sum (sv : List ℚ) (sidx : ℕ) (pairs : List (ℕ × ℚ)) :
    annealEdiff sv sidx pairs = (pairs.map (nbContrib sv sidx)).sum := by
  rw [annealEdiff]
  rw [foldl_congr_fun pairs _ (fun e p => e + nbContrib sv sidx p)
    (fun e p => by simp only [nbContrib]; by_cases h : p.1 = sidx <;> simp [h])]
  rw [foldl_add_sum]
  ring

theorem msEdiff_eq_sum (svN : List ℕ) (sidx k : ℕ) (pairs : List (ℕ × ℚ)) :
    msEdiff svN sidx k pairs = (pairs.map (msContrib svN sidx k)).sum := by
  rw [msEdiff]
  rw [foldl_congr_fun pairs _ (fun e p => e + msContrib svN sidx k p)
    (fun e p => by
      simp only [msContrib]
      by_cases h : p.1 = sidx
      · rw [if_pos h, if_pos h]
        by_cases hb : getbit (svN.getD sidx 0) (63 - k)
        · rw [if_pos hb, if_pos hb]
        · rw [if_neg hb, if_neg hb]; ring
      · rw [if_neg h, if_neg h]
        by_cases hb : getbit (svN.getD sidx 0 ^^^ svN.getD p.1 0) (63 - k)
        · rw [if_pos hb, if_pos hb]
        · rw [if_neg hb, if_neg hb]; ring)]
  rw [foldl_add_sum]
  ring

theorem decodeBit_getD (k : ℕ) (svN : List ℕ) (i : ℕ) (hi : i < svN.length) :
    (decodeBit k svN).getD i 0 = if getbit (svN.getD i 0) (63 - k) then -1 else 1 := by
  rw [decodeBit, getD_map _ _ i 0 0 hi]

theorem decodeBit_length (k : ℕ) (svN : List ℕ) :
    (decodeBit k svN).length = svN.length := by
  rw [decodeBit, List.length_map]

theorem msContrib_eq_nbContrib (svN : List ℕ) (sidx k : ℕ) (hs : sidx < svN.length)
    (p : ℕ × ℚ) (hp : p.1 < svN.length) :
    msContrib svN sidx k p = nbContrib (decodeBit k svN) sidx p := by
  simp only [msContrib, nbContrib]
  by_cases h : p.1 = sidx
  · rw [if_pos h, if_pos h, decodeBit_getD k svN sidx hs]
    cases hb : getbit (svN.getD sidx 0) (63 - k) <;> simp
  · rw [if_neg h, if_neg h, decodeBit_getD k svN sidx hs, decodeBit_getD k svN p.1 hp]
    have hxor : getbit (svN.getD sidx 0 ^^^ svN.getD p.1 0) (63 - k)
        = ((getbit (svN.getD sidx 0) (63 - k)).xor (getbit (svN.getD p.1 0) (63 - k))) := by
      rw [getbit_eq_testBit, getbit_eq_testBit, getbit_eq_testBit, Nat.testBit_xor]
    rw [hxor]
    cases hb1 : getbit (svN.getD sidx 0) (63 - k) <;>
      cases hb2 : getbit (svN.getD p.1 0) (63 - k) <;>
        simp

theorem msEdiff_eq_decode (svN : List ℕ) (sidx k : ℕ) (hs : sidx < svN.length)
    (pairs : List (ℕ × ℚ)) (hp : ∀ p ∈ pairs, p.1 < svN.length) :
    msEdiff svN sidx k pairs = annealEdiff (decodeBit k svN) sidx pairs := by
  rw [msEdiff_eq_sum, annealEdiff_eq_sum]
  congr 1
  exact List.map_congr_left (fun p hpm => msContrib_eq_nbContrib svN sidx k hs p (hp p hpm))

theorem accept_eq_of_lt_one (cexp : ℚ → ℚ) (hexp : ∀ y, 0 ≤ y → 1 ≤ cexp y)
    (e T u : ℚ) (hT : 0 < T) (hu : u < 1) :
    annealAcceptB cexp e T u = decide (cexp (e / T) > u) := by
  rw [annealAcceptB]
  by_cases he : e ≥ 0
  · have h1 : 1 ≤ cexp (e / T) := hexp _ (div_nonneg he (le_of_lt hT))
    have h2 : cexp (e / T) > u := lt_of_lt_of_le hu h1
    rw [decide_eq_true he, decide_eq_true h2, Bool.true_or]
  · rw [decide_eq_false he, Bool.false_or]

theorem parallelAccept_eq_anneal (cexp : ℚ → ℚ) (hexp : ∀ y, 0 ≤ y → 1 ≤ cexp y)
    (e T u : ℚ) (hT : 0 < T) (hu : u < 1) :
    parallelAcceptB cexp e T u = annealAcceptB cexp e T u := by
  rw [accept_eq_of_lt_one cexp hexp e T u hT hu, parallelAcceptB]
  by_cases he : e > 0
  · have h1 : 1 ≤ cexp (e / T) := hexp _ (div_nonneg (le_of_lt he) (le_of_lt hT))
    have h2 : cexp (e / T) > u := lt_of_lt_of_le hu h1
    rw [decide_eq_true he, decide_eq_true h2, Bool.true_or]
  · rw [decide_eq_false he, Bool.false_or]

theorem quantumAccept_eq_parallel (cexp : ℚ → ℚ) (e T u : ℚ) :
    quantumAcceptB cexp e T u = parallelAcceptB cexp e T u := rfl

theorem parallelEdiff_eq_anneal (sv : List ℚ) (sidx : ℕ) (pairs : List (ℕ × ℚ)) :
    parallelEdiff sv sidx pairs = annealEdiff sv sidx pairs := rfl

theorem quantumNbEdiff_eq_anneal (sv : List ℚ) (sidx : ℕ) (pairs : List (ℕ × ℚ)) :
    quantumNbEdiff sv sidx pairs = annealEdiff sv sidx pairs := rfl

theorem getD_mem_of_lt {α : Type*} (l : List α) (i : ℕ) (d : α)
    (h : i < l.length) : l.getD i d ∈ l := by
  rw [List.getD_eq_getElem?_getD, List.getElem?_eq_getElem h]
  exact List.getElem_mem h

theorem msSpinStep_decode (cexp : ℚ → ℚ) (hexp : ∀ y, 0 ≤ y → 1 ≤ cexp y)
    (nbs : List (List (ℕ × ℚ))) (T : ℚ) (hT : 0 < T) (svN : List ℕ)
    (hnb : ∀ l ∈ nbs, ∀ p ∈ l, p.1 < svN.length)
    (sidx k : ℕ) (hk : k < 64) (rand : ℕ → ℚ) (hu : rand k < 1) :
    decodeBit k (msSpinStep cexp nbs T svN sidx rand)
      = annealSpinStep cexp nbs T (decodeBit k svN) sidx (rand k) := by
  have hpairs : ∀ p ∈ nbs.getD sidx [], p.1 < svN.length := by
    by_cases hsx : sidx < nbs.length
    · intro p hpm
      exact hnb _ (getD_mem_of_lt nbs sidx [] hsx) p hpm
    · rw [getD_of_length_le nbs sidx [] (Nat.le_of_not_lt hsx)]
      intro p hpm
      exact absurd hpm (List.not_mem_nil p)
  by_cases hs : sidx < svN.length
  · have haccept : annealAcceptB cexp
        (annealEdiff (decodeBit k svN) sidx (nbs.getD sidx [])) T (rand k)
        = msSign cexp svN sidx (nbs.getD sidx []) T rand k := by
      rw [accept_eq_of_lt_one cexp hexp _ T _ hT hu, msSign,
        msEdiff_eq_decode svN sidx k hs _ hpairs]
    have hmap : ∀ x : ℕ, decodeBit k (svN.set sidx x)
        = (decodeBit k svN).set sidx (if getbit x (63 - k) then -1 else 1) := by
      intro x
      rw [decodeBit, decodeBit, List.map_set]
    have hbit : getbit (svN.getD sidx 0
          ^^^ msFlipmask (msSign cexp svN sidx (nbs.getD sidx []) T rand)) (63 - k)
        = ((getbit (svN.getD sidx 0) (63 - k)).xor
            (msSign cexp svN sidx (nbs.getD sidx []) T rand k)) := by
      rw [getbit_eq_testBit, Nat.testBit_xor, msFlipmask_testBit _ k hk,
        ← getbit_eq_testBit]
    rw [msSpinStep, annealSpinStep, haccept, hmap, hbit]
    cases hsg : msSign cexp svN sidx (nbs.getD sidx []) T rand k
    · rw [Bool.xor_false, if_neg (by decide : ¬ (false = true)),
        ← decodeBit_getD k svN sidx hs, set_getD_self]
    · rw [if_pos rfl, Bool.xor_true, decodeBit_getD k svN sidx hs]
      cases hb : getbit (svN.getD sidx 0) (63 - k) <;> simp
  · have hlen : svN.length ≤ sidx := Nat.le_of_not_lt hs
    rw [msSpinStep, List.set_eq_of_length_le hlen, annealSpinStep]
    by_cases hacc : annealAcceptB cexp
        (annealEdiff (decodeBit k svN) sidx (nbs.getD sidx [])) T (rand k) = true
    · rw [if_pos hacc,
        List.set_eq_of_length_le (by rw [decodeBit_length]; exact hlen)]
    · rw [if_neg hacc]

theorem foldl_rel_mem {α β γ : Type*} (R : α → β → Prop) (f : α → γ → α)
    (g : β → γ → β) : ∀ (l : List γ),
    (∀ a b c, c ∈ l → R a b → R (f a c) (g b c)) →
    ∀ a b, R a b → R (l.foldl f a) (l.foldl g b) := by
  intro l
  induction l with
  | nil => intro _ a b hab; simpa using hab
  | cons c l ih =>
    intro h a b hab
    rw [List.foldl_cons, List.foldl_cons]
    exact ih (fun a b c' hc' => h a b c' (List.mem_cons_of_mem c hc'))
      _ _ (h a b c (List.mem_cons_self c l) hab)

theorem msSpinStep_length (cexp : ℚ → ℚ) (nbs : List (List (ℕ × ℚ))) (T : ℚ)
    (svN : List ℕ) (sidx : ℕ) (rand : ℕ → ℚ) :
    (msSpinStep cexp nbs T svN sidx rand).length = svN.length := by
  rw [msSpinStep, List.length_set]

theorem msRun_decodeBit (cexp : ℚ → ℚ) (hexp : ∀ y, 0 ≤ y → 1 ≤ cexp y)
    (sched : List ℚ) (hT : ∀ T ∈ sched, 0 < T) (mcsteps : ℕ) (svN0 : List ℕ)
    (nbs : List (List (ℕ × ℚ)))
    (hnb : ∀ l ∈ nbs, ∀ p ∈ l, p.1 < svN0.length)
    (orders : ℕ → List ℕ) (rands : ℕ → ℕ → ℚ)
    (k : ℕ) (hk : k < 64) (hu : ∀ c, rands c k < 1) :
    decodeBit k (msAnnealRun cexp sched mcsteps svN0 nbs orders rands)
      = Anneal cexp sched mcsteps (decodeBit k svN0) nbs orders (fun c => rands c k) := by
  have hsweep : ∀ (T : ℚ), 0 < T → ∀ (order : List ℕ)
      (m : List ℕ × ℕ) (a : List ℚ × ℕ),
      (a.1 = decodeBit k m.1 ∧ a.2 = m.2 ∧ m.1.length = svN0.length) →
      ((annealSweep cexp nbs T (fun c => rands c k) order a).1
          = decodeBit k (msSweep cexp nbs T rands order m).1
        ∧ (annealSweep cexp nbs T (fun c => rands c k) order a).2
          = (msSweep cexp nbs T rands order m).2
        ∧ (msSweep cexp nbs T rands order m).1.length = svN0.length) := by
    intro T hT0 order m a hR
    rw [msSweep, annealSweep]
    have hrel := foldl_rel
      (fun (m : List ℕ × ℕ) (a : List ℚ × ℕ) =>
        a.1 = decodeBit k m.1 ∧ a.2 = m.2 ∧ m.1.length = svN0.length)
      (fun st sidx => (msSpinStep cexp nbs T st.1 sidx (rands st.2), st.2 + 1))
      (fun st sidx => (annealSpinStep cexp nbs T st.1 sidx (rands st.2 k), st.2 + 1))
      ?_ order m a hR
    · exact hrel
    · intro m a sidx hR'
      obtain ⟨h1, h2, h3⟩ := hR'
      dsimp only
      refine ⟨?_, by rw [h2], by rw [msSpinStep_length]; exact h3⟩
      rw [h1, h2]
      exact (msSpinStep_decode cexp hexp nbs T hT0 m.1
        (by rw [h3]; exact hnb) sidx k hk (rands m.2) (hu m.2)).symm
  have hmc : ∀ (T : ℚ), 0 < T → ∀ (m : List ℕ × ℕ × ℕ) (a : List ℚ × ℕ × ℕ),
      (a.1 = decodeBit k m.1 ∧ a.2.1 = m.2.1 ∧ a.2.2 = m.2.2
        ∧ m.1.length = svN0.length) →
      ((annealMCStep cexp nbs orders (fun c => rands c k) T a).1
          = decodeBit k (msMCStep cexp nbs orders rands T m).1
        ∧ (annealMCStep cexp nbs orders (fun c => rands c k) T a).2.1
          = (msMCStep cexp nbs orders rands T m).2.1
        ∧ (annealMCStep cexp nbs orders (fun c => rands c k) T a).2.2
          = (msMCStep cexp nbs orders rands T m).2.2
        ∧ (msMCStep cexp nbs orders rands T m).1.length = svN0.length) := by
    intro T hT0 m a hR
    obtain ⟨h1, h2, h3, h4⟩ := hR
    have hsw := hsweep T hT0 (orders m.2.1) (m.1, m.2.2) (a.1, a.2.2) ⟨h1, h3, h4⟩
    simp only [annealMCStep, msMCStep]
    rw [h2]
    exact ⟨hsw.1, rfl, hsw.2.1, hsw.2.2⟩
  have hfinal := foldl_rel_mem
    (fun (m : List ℕ × ℕ × ℕ) (a : List ℚ × ℕ × ℕ) =>
      a.1 = decodeBit k m.1 ∧ a.2.1 = m.2.1 ∧ a.2.2 = m.2.2
        ∧ m.1.length = svN0.length)
    (fun st T => (List.range mcsteps).foldl
      (fun st _ => msMCStep cexp nbs orders rands T st) st)
    (fun st T => (List.range mcsteps).foldl
      (fun st _ => annealMCStep cexp nbs orders (fun c => rands c k) T st) st)
    sched ?_ (svN0, 0, 0) (decodeBit k svN0, 0, 0) ⟨rfl, rfl, rfl, rfl⟩
  · rw [msAnnealRun, Anneal]
    exact hfinal.1.symm
  · intro m a T hTm hR
    exact foldl_rel _ _ _
      (fun m a _ hR' => by
        have := hmc T (hT T hTm) m a hR'
        exact ⟨this.1, this.2.1, this.2.2.1, this.2.2.2⟩)
      (List.range mcsteps) m a hR

theorem parallelSpinStep_eq_anneal (cexp : ℚ → ℚ)
    (hexp : ∀ y, 0 ≤ y → 1 ≤ cexp y) (nbs : List (List (ℕ × ℚ))) (T : ℚ)
    (hT : 0 < T) (sv : List ℚ) (sidx : ℕ) (u : ℚ) (hu : u < 1) :
    parallelSpinStep cexp nbs T sv sidx u = annealSpinStep cexp nbs T sv sidx u := by
  rw [parallelSpinStep, annealSpinStep, parallelEdiff_eq_anneal,
    parallelAccept_eq_anneal cexp hexp _ T u hT hu]

theorem parallelRun_eq_anneal (cexp : ℚ → ℚ)
    (hexp : ∀ y, 0 ≤ y → 1 ≤ cexp y) (sched : List ℚ)
    (hT : ∀ T ∈ sched, 0 < T) (mcsteps : ℕ) (sv : List ℚ)
    (nbs : List (List (ℕ × ℚ))) (draws : ℕ → ℚ) (hu : ∀ c, draws c < 1) :
    Anneal_parallel cexp sched mcsteps sv nbs draws
      = Anneal cexp sched mcsteps sv nbs (fun _ => List.range sv.length) draws := by
  have hsweepeq : ∀ (T : ℚ), 0 < T → ∀ (st : List ℚ × ℕ),
      (List.range sv.length).foldl
        (fun st sidx => (parallelSpinStep cexp nbs T st.1 sidx (draws st.2), st.2 + 1)) st
        = annealSweep cexp nbs T draws (List.range sv.length) st := by
    intro T hT0 st
    rw [annealSweep]
    exact foldl_congr_fun _ _ _
      (fun st sidx => by
        rw [parallelSpinStep_eq_anneal cexp hexp nbs T hT0 st.1 sidx (draws st.2) (hu st.2)])
      st
  have hrel := foldl_rel_mem
    (fun (p : List ℚ × ℕ) (a : List ℚ × ℕ × ℕ) => p.1 = a.1 ∧ p.2 = a.2.2)
    (fun st T =>
      (List.range mcsteps).foldl
        (fun st _ =>
          (List.range sv.length).foldl
            (fun st sidx =>
              (parallelSpinStep cexp nbs T st.1 sidx (draws st.2), st.2 + 1))
            st)
        st)
    (fun st T =>
      (List.range mcsteps).foldl
        (fun st _ =>
          annealMCStep cexp nbs (fun _ => List.range sv.length) draws T st) st)
    sched ?_ (sv, 0) (sv, 0, 0) ⟨rfl, rfl⟩
  · simp only [Anneal_parallel, Anneal]
    exact hrel.1
  · intro p a T hTm hR
    refine foldl_rel
      (fun (p : List ℚ × ℕ) (a : List ℚ × ℕ × ℕ) => p.1 = a.1 ∧ p.2 = a.2.2)
      _ _ ?_ (List.range mcsteps) p a hR
    intro p a _ hR'
    obtain ⟨h1, h2⟩ := hR'
    have hp : p = (a.1, a.2.2) := Prod.ext_iff.mpr ⟨h1, h2⟩
    rw [hp, annealMCStep]
    rw [hsweepeq T (hT T hTm) (a.1, a.2.2)]
    exact ⟨rfl, rfl⟩

theorem isPM1_neg (x : ℚ) (h : isPM1 x) : isPM1 (x * -1) := by
  rcases h with h | h
  · right; rw [h]; norm_num
  · left; rw [h]; norm_num

theorem annealSpinStep_pm1 (cexp : ℚ → ℚ) (nbs : List (List (ℕ × ℚ)))
    (T : ℚ) (sv : List ℚ) (sidx : ℕ) (u : ℚ) (h : ∀ x ∈ sv, isPM1 x) :
    ∀ x ∈ annealSpinStep cexp nbs T sv sidx u, isPM1 x := by
  intro x hx
  rw [annealSpinStep] at hx
  by_cases hs : sidx < sv.length
  · split at hx
    · rcases List.mem_or_eq_of_mem_set hx with hmem | heq
      · exact h x hmem
      · subst heq
        exact isPM1_neg _ (h _ (getD_mem_of_lt sv sidx 0 hs))
    · exact h x hx
  · rw [List.set_eq_of_length_le (Nat.le_of_not_lt hs)] at hx
    split at hx <;> exact h x hx

theorem annealSweep_pm1 (cexp : ℚ → ℚ) (nbs : List (List (ℕ × ℚ))) (T : ℚ)
    (draws : ℕ → ℚ) (order : List ℕ) (st : List ℚ × ℕ)
    (hst : ∀ x ∈ st.1, isPM1 x) :
    ∀ x ∈ (annealSweep cexp nbs T draws order st).1, isPM1 x := by
  rw [annealSweep]
  exact foldl_inv (fun (st : List ℚ × ℕ) => ∀ x ∈ st.1, isPM1 x) _
    (fun st sidx h' => annealSpinStep_pm1 cexp nbs T st.1 sidx (draws st.2) h')
    order st hst

theorem Anneal_pm1 (cexp : ℚ → ℚ) (sched : List ℚ) (mcsteps : ℕ)
    (sv : List ℚ) (nbs : List (List (ℕ × ℚ))) (orders : ℕ → List ℕ)
    (draws : ℕ → ℚ) (h : ∀ x ∈ sv, isPM1 x) :
    ∀ x ∈ Anneal cexp sched mcsteps sv nbs orders draws, isPM1 x := by
  rw [Anneal]
  refine foldl_inv (fun (st : List ℚ × ℕ × ℕ) => ∀ x ∈ st.1, isPM1 x)
    _ ?_ sched (sv, 0, 0) h
  intro st T hst
  refine foldl_inv (fun (st : List ℚ × ℕ × ℕ) => ∀ x ∈ st.1, isPM1 x)
    _ ?_ (List.range mcsteps) st hst
  intro st _ hst'
  rw [annealMCStep]
  exact annealSweep_pm1 cexp nbs T draws (orders st.2.1) (st.1, st.2.2) hst'

theorem qSpinStep_pm1 (cexp : ℚ → ℚ) (nbs : List (List (ℕ × ℚ)))
    (jperp T : ℚ) (islice : ℕ) (conf : List (List ℚ)) (ispin : ℕ) (u : ℚ)
    (h : ∀ row ∈ conf, ∀ x ∈ row, isPM1 x) :
    ∀ row ∈ qSpinStep cexp nbs jperp T islice conf ispin u, ∀ x ∈ row, isPM1 x := by
  intro row hrow x hx
  rw [qSpinStep] at hrow
  by_cases hi : ispin < conf.length
  · split at hrow
    · rcases List.mem_or_eq_of_mem_set hrow with hmem | heq
      · exact h row hmem x hx
      · subst heq
        have hold : ∀ y ∈ conf.getD ispin [], isPM1 y :=
          h _ (getD_mem_of_lt conf ispin [] hi)
        by_cases hsl : islice < (conf.getD ispin []).length
        · rcases List.mem_or_eq_of_mem_set hx with hm2 | he2
          · exact hold x hm2
          · subst he2
            exact isPM1_neg _ (hold _ (getD_mem_of_lt _ islice 0 hsl))
        · rw [List.set_eq_of_length_le (Nat.le_of_not_lt hsl)] at hx
          exact hold x hx
    · exact h row hrow x hx
  · rw [List.set_eq_of_length_le (Nat.le_of_not_lt hi)] at hrow
    split at hrow <;> exact h row hrow x hx

theorem qSliceStep_pm1 (cexp : ℚ → ℚ) (nbs : List (List (ℕ × ℚ)))
    (spinOrders : ℕ → List ℕ) (draws : ℕ → ℚ) (jperp T : ℚ)
    (st : List (List ℚ) × ℕ × ℕ) (islice : ℕ)
    (hst : ∀ row ∈ st.1, ∀ x ∈ row, isPM1 x) :
    ∀ row ∈ (qSliceStep cexp nbs spinOrders draws jperp T st islice).1,
      ∀ x ∈ row, isPM1 x := by
  rw [qSliceStep]
  exact foldl_inv (fun (s : List (List ℚ) × ℕ) => ∀ row ∈ s.1, ∀ x ∈ row, isPM1 x)
    _ (fun s ispin h' => qSpinStep_pm1 cexp nbs jperp T islice s.1 ispin (draws s.2) h')
    (spinOrders st.2.1) (st.1, st.2.2) hst

theorem QuantumAnneal_pm1 (cexp perpJOf : ℚ → ℚ) (sched : List ℚ)
    (mcSteps : ℕ) (T : ℚ) (conf : List (List ℚ))
    (nbs : List (List (ℕ × ℚ))) (sliceOrders spinOrders : ℕ → List ℕ)
    (draws : ℕ → ℚ) (h : ∀ row ∈ conf, ∀ x ∈ row, isPM1 x) :
    ∀ row ∈ QuantumAnneal cexp perpJOf sched mcSteps T conf nbs
        sliceOrders spinOrders draws, ∀ x ∈ row, isPM1 x := by
  rw [QuantumAnneal]
  refine foldl_inv
    (fun (st : List (List ℚ) × ℕ × ℕ × ℕ) => ∀ row ∈ st.1, ∀ x ∈ row, isPM1 x)
    _ ?_ sched (conf, 0, 0, 0) h
  intro st field hst
  refine foldl_inv
    (fun (st : List (List ℚ) × ℕ × ℕ × ℕ) => ∀ row ∈ st.1, ∀ x ∈ row, isPM1 x)
    _ ?_ (List.range mcSteps) st hst
  intro st _ hst'
  rw [qMCStep]
  exact foldl_inv
    (fun (s : List (List ℚ) × ℕ × ℕ) => ∀ row ∈ s.1, ∀ x ∈ row, isPM1 x)
    _ (fun s islice h' =>
        qSliceStep_pm1 cexp nbs spinOrders draws (perpJOf field) T s islice h')
    (sliceOrders st.2.1) (st.1, st.2.2.1, st.2.2.2) hst'

theorem foldl_inv_mem {α γ : Type*} (P : α → Prop) (f : α → γ → α) :
    ∀ (l : List γ), (∀ a c, c ∈ l → P a → P (f a c)) →
    ∀ a, P a → P (l.foldl f a) := by
  intro l
  induction l with
  | nil => intro _ a ha; simpa using ha
  | cons c l ih =>
    intro h a ha
    rw [List.foldl_cons]
    exact ih (fun a c' hc' => h a c' (List.mem_cons_of_mem c hc'))
      _ (h a c (List.mem_cons_self c l) ha)

theorem getD_set {α : Type*} (l : List α) (i j : ℕ) (a d : α) :
    (l.set i a).getD j d = if i = j ∧ i < l.length then a else l.getD j d := by
  by_cases h : i = j ∧ i < l.length
  · obtain ⟨h1, h2⟩ := h
    subst h1
    rw [if_pos ⟨rfl, h2⟩, List.getD_eq_getElem?_getD, List.getElem?_set_self h2]
    rfl
  · rw [if_neg h]
    by_cases hij : i = j
    · subst hij
      have hlen : l.length ≤ i := by
        rcases Nat.lt_or_ge i l.length with hlt | hge
        · exact absurd ⟨rfl, hlt⟩ h
        · exact hge
      rw [List.set_eq_of_length_le hlen]
    · rw [List.getD_eq_getElem?_getD, List.getD_eq_getElem?_getD,
        List.getElem?_set_ne hij]

theorem setMat_self (mat : List (List ℚ)) (k si : ℕ) (v : ℚ)
    (hv : (mat.getD k []).getD si 0 = v) : setMat mat k si v = mat := by
  rw [setMat, ← hv, set_getD_self, set_getD_self]

theorem unpackWordInto_self (mat : List (List ℚ)) (w sidx : ℕ)
    (h : ∀ k, k < 64 → setMat mat k sidx (if getbit w (63 - k) then 1 else 0) = mat) :
    unpackWordInto mat w sidx = mat := by
  rw [unpackWordInto]
  refine foldl_inv_mem (fun m => m = mat) _ (List.range 64) ?_ mat rfl
  intro m k hk hm
  rw [hm, h k (by simpa using hk)]

theorem unpackInto_values (mat0 : List (List ℚ)) (svN : List ℕ) (k' si' : ℕ) :
    ((unpackInto mat0 svN).getD k' []).getD si' 0 = (mat0.getD k' []).getD si' 0
      ∨ ((unpackInto mat0 svN).getD k' []).getD si' 0 = 0
      ∨ ((unpackInto mat0 svN).getD k' []).getD si' 0 = 1 := by
  rw [unpackInto]
  refine foldl_inv
    (fun (m : List (List ℚ)) => ∀ a b : ℕ,
      (m.getD a []).getD b 0 = (mat0.getD a []).getD b 0
        ∨ (m.getD a []).getD b 0 = 0 ∨ (m.getD a []).getD b 0 = 1)
    _ ?_ (unpackIndices svN) mat0 (fun a b => Or.inl rfl) k' si'
  intro m sidx hm
  rw [unpackWordInto]
  refine foldl_inv
    (fun (m : List (List ℚ)) => ∀ a b : ℕ,
      (m.getD a []).getD b 0 = (mat0.getD a []).getD b 0
        ∨ (m.getD a []).getD b 0 = 0 ∨ (m.getD a []).getD b 0 = 1)
    _ ?_ (List.range 64) m hm
  intro m k hmk a b
  rw [setMat, getD_set m k a _ []]
  by_cases hk : k = a ∧ k < m.length
  · rw [if_pos hk]
    rw [getD_set (m.getD k []) sidx b _ 0]
    by_cases hsi : sidx = b ∧ sidx < (m.getD k []).length
    · rw [if_pos hsi]
      by_cases hb : getbit (svN.getD sidx 0) (63 - k)
      · rw [if_pos hb]; right; right; rfl
      · rw [if_neg hb]; right; left; rfl
    · rw [if_neg hsi]
      obtain ⟨hk1, _⟩ := hk
      subst hk1
      exact hmk k b
  · rw [if_neg hk]
    exact hmk a b

theorem packMat_length (mat : List (List ℚ)) (n : ℕ) :
    (packMat mat n).length = n := by
  rw [packMat, List.length_map, List.length_range]

theorem unpackInto_packMat (mat : List (List ℚ)) (n : ℕ)
    (h64 : mat.length = 64) (hrow : ∀ row ∈ mat, row.length = n)
    (h01 : ∀ row ∈ mat, ∀ x ∈ row, x = 0 ∨ x = 1) :
    unpackInto mat (packMat mat n) = mat := by
  rw [unpackInto]
  refine foldl_inv (fun m => m = mat) _ ?_ (unpackIndices (packMat mat n)) mat rfl
  intro m sidx hm
  rw [hm]
  apply unpackWordInto_self
  intro k hk
  by_cases hsx : sidx < n
  · apply setMat_self
    have hw : (packMat mat n).getD sidx 0 = packWord (matColumn mat sidx) := by
      rw [packMat, getD_map _ _ sidx 0 0 (by simpa using hsx)]
      congr 1
      rw [List.getD_eq_getElem?_getD, List.getElem?_range hsx]
      rfl
    rw [hw]
    have hcollen : (matColumn mat sidx).length = 64 := by
      rw [matColumn, List.length_map, h64]
    have hbit : getbit (packWord (matColumn mat sidx)) (63 - k)
        = decide ((matColumn mat sidx).getD k 0 ≠ 0) := by
      rw [getbit_eq_testBit]
      have h63 : (63 : ℕ) - k = (matColumn mat sidx).length - 1 - k := by
        rw [hcollen]
      rw [h63, packWord_testBit _ k (by rw [hcollen]; exact hk)]
    have hcol : (matColumn mat sidx).getD k 0 = (mat.getD k []).getD sidx 0 := by
      rw [matColumn, getD_map _ _ k 0 [] (by rw [h64]; exact hk)]
    rw [hbit, hcol]
    have hrowk : mat.getD k [] ∈ mat := getD_mem_of_lt mat k [] (by rw [h64]; exact hk)
    have hentry : (mat.getD k []).getD sidx 0 = 0 ∨ (mat.getD k []).getD sidx 0 = 1 := by
      refine h01 _ hrowk _ (getD_mem_of_lt _ sidx 0 ?_)
      rw [hrow _ hrowk]
      exact hsx
    rcases hentry with he | he <;> rw [he] <;> simp
  · have hrlen : (mat.getD k []).length ≤ sidx := by
      by_cases hkm : k < mat.length
      · rw [hrow _ (getD_mem_of_lt mat k [] hkm)]; omega
      · rw [getD_of_length_le mat k [] (Nat.le_of_not_lt hkm)]
        exact Nat.zero_le sidx
    rw [setMat, List.set_eq_of_length_le hrlen, set_getD_self]

theorem packWord_normalize (col : List ℚ) :
    packWord col = packWord (col.map (fun x => if x = 0 then (0:ℚ) else 1)) := by
  rw [packWord_eq, packWord_eq, List.map_map]
  congr 1
  refine List.map_congr_left ?_
  intro x _
  by_cases h : x = 0 <;> simp [h]

theorem Anneal_zero_steps (cexp : ℚ → ℚ) (sched : List ℚ) (sv : List ℚ)
    (nbs : List (List (ℕ × ℚ))) (orders : ℕ → List ℕ) (draws : ℕ → ℚ) :
    Anneal cexp sched 0 sv nbs orders draws = sv := by
  rw [Anneal]
  exact congrArg Prod.fst
    (foldl_congr_id _ (fun st T => by rw [List.range_zero, List.foldl_nil])
      sched (sv, 0, 0))

theorem Anneal_parallel_zero_steps (cexp : ℚ → ℚ) (sched : List ℚ)
    (sv : List ℚ) (nbs : List (List (ℕ × ℚ))) (draws : ℕ → ℚ) :
    Anneal_parallel cexp sched 0 sv nbs draws = sv := by
  rw [Anneal_parallel]
  exact congrArg Prod.fst
    (foldl_congr_id _ (fun st T => by rw [List.range_zero, List.foldl_nil])
      sched (sv, 0))

theorem msAnnealRun_zero_steps (cexp : ℚ → ℚ) (sched : List ℚ)
    (svN : List ℕ) (nbs : List (List (ℕ × ℚ))) (orders : ℕ → List ℕ)
    (rands : ℕ → ℕ → ℚ) :
    msAnnealRun cexp sched 0 svN nbs orders rands = svN := by
  rw [msAnnealRun]
  exact congrArg Prod.fst
    (foldl_congr_id _ (fun st T => by rw [List.range_zero, List.foldl_nil])
      sched (svN, 0, 0))

theorem QuantumAnneal_zero_steps (cexp perpJOf : ℚ → ℚ) (sched : List ℚ)
    (T : ℚ) (conf : List (List ℚ)) (nbs : List (List (ℕ × ℚ)))
    (sliceOrders spinOrders : ℕ → List ℕ) (draws : ℕ → ℚ) :
    QuantumAnneal cexp perpJOf sched 0 T conf nbs sliceOrders spinOrders draws
      = conf := by
  rw [QuantumAnneal]
  exact congrArg Prod.fst
    (foldl_congr_id _ (fun st field => by rw [List.range_zero, List.foldl_nil])
      sched (conf, 0, 0, 0))

theorem expQ_ge_one (y : ℚ) (hy : 0 ≤ y) : 1 ≤ expQ y := by
  rw [expQ, if_pos hy]
  linarith

/-- C1: in every per-spin energy-difference computation (sequential
classical, parallel classical, multispin and quantum kernels), a
neighbor pair whose index equals the visited spin's own index
contributes exactly -2 * spin * coupling (linear bias, the spin value
multiplied in once), every other pair contributes exactly
-2 * spin * coupling * neighbor (quadratic), and ediff is the sum of
these contributions over the spin's full neighbor list; for the
multispin kernel this holds per replica under the bit decoding. -/
theorem C1_ediff_is_sum_of_contributions (sv : List ℚ) (svN : List ℕ)
    (sidx k : ℕ) (pairs : List (ℕ × ℚ)) :
    annealEdiff sv sidx pairs = (pairs.map (nbContrib sv sidx)).sum
    ∧ parallelEdiff sv sidx pairs = (pairs.map (nbContrib sv sidx)).sum
    ∧ quantumNbEdiff sv sidx pairs = (pairs.map (nbContrib sv sidx)).sum
    ∧ (sidx < svN.length → (∀ p ∈ pairs, p.1 < svN.length) →
        msEdiff svN sidx k pairs
          = (pairs.map (nbContrib (decodeBit k svN) sidx)).sum) :=
  ⟨annealEdiff_eq_sum sv sidx pairs,
   by rw [parallelEdiff_eq_anneal]; exact annealEdiff_eq_sum sv sidx pairs,
   by rw [quantumNbEdiff_eq_anneal]; exact annealEdiff_eq_sum sv sidx pairs,
   fun hs hp => by
     rw [msEdiff_eq_decode svN sidx k hs pairs hp]
     exact annealEdiff_eq_sum _ sidx pairs⟩

theorem C1_witness :
    msEdiff [2 ^ 63, 0] 0 0 [(0, 3), (1, 5)]
      = ([((0:ℕ), (3:ℚ)), (1, 5)].map (nbContrib (decodeBit 0 [2 ^ 63, 0]) 0)).sum :=
  (C1_ediff_is_sum_of_contributions [1, -1] [2 ^ 63, 0] 0 0
    [(0, 3), (1, 5)]).2.2.2 (by decide) (by decide)

/-- C2 (counterexample to the claim as stated): it is not true that in
every variant a flip with ediff >= 0 is accepted with no random draw
and no exponential evaluation deciding the outcome: at ediff = 0 the
parallel and quantum kernels compare the exponential against the draw,
and with the draw equal to 1 (attainable from crand()/RAND_MAX) and an
exponential with exp 0 = 1 they reject, while Anneal's >= 0 fast path
accepts unconditionally. -/
theorem C2_counterexample :
    parallelAcceptB expQ 0 1 1 = false ∧ quantumAcceptB expQ 0 1 1 = false
      ∧ annealAcceptB expQ 0 1 1 = true ∧ (0:ℚ) ≥ 0 ∧ expQ 0 = 1 :=
  ⟨by norm_num [parallelAcceptB, expQ], by norm_num [quantumAcceptB, expQ],
   by norm_num [annealAcceptB], by norm_num, by norm_num [expQ]⟩

/-- C2 (amended): Anneal accepts unconditionally exactly when
ediff >= 0; Anneal_parallel and the quantum kernel accept
unconditionally only when ediff > 0, and otherwise — including at
ediff = 0 — accept exactly when exp(ediff / T) exceeds the fresh
uniform draw (so at ediff = 0 they still evaluate the exponential
against the draw, accepting whenever the draw is below exp 0). -/
theorem C2_accept_rule_amended (cexp : ℚ → ℚ) (e T u : ℚ) :
    (annealAcceptB cexp e T u = true ↔ (0 ≤ e ∨ cexp (e / T) > u))
    ∧ (parallelAcceptB cexp e T u = true ↔ (0 < e ∨ cexp (e / T) > u))
    ∧ (quantumAcceptB cexp e T u = true ↔ (0 < e ∨ cexp (e / T) > u))
    ∧ parallelAcceptB cexp 0 T u = decide (cexp 0 > u)
    ∧ quantumAcceptB cexp 0 T u = decide (cexp 0 > u) := by
  refine ⟨?_, ?_, ?_, ?_, ?_⟩ <;>
    simp [annealAcceptB, parallelAcceptB, quantumAcceptB, ge_iff_le, zero_div]

/-- C3: encoding equivalence of the multispin engine: for every
coupling graph with valid neighbor indices, positive-temperature
schedule, sweep count, visitation-order stream and draw stream from
[0,1), each of the 64 bit positions of the packed run evolves to
exactly the configuration the sequential engine Anneal produces from
that bit's decoded initial configuration over the same visitation
orders with that bit's draw sequence (in particular, with all 64
replicas initialized identically, every bit reproduces Anneal's run). -/
theorem C3_multispin_matches_sequential (cexp : ℚ → ℚ)
    (hexp : ∀ y, 0 ≤ y → 1 ≤ cexp y) (sched : List ℚ)
    (hT : ∀ T ∈ sched, 0 < T) (mcsteps : ℕ) (svN0 : List ℕ)
    (nbs : List (List (ℕ × ℚ))) (hnb : ∀ l ∈ nbs, ∀ p ∈ l, p.1 < svN0.length)
    (orders : ℕ → List ℕ) (rands : ℕ → ℕ → ℚ) (k : ℕ) (hk : k < 64)
    (hu : ∀ c, rands c k < 1) :
    decodeBit k (msAnnealRun cexp sched mcsteps svN0 nbs orders rands)
      = Anneal cexp sched mcsteps (decodeBit k svN0) nbs orders (fun c => rands c k) :=
  msRun_decodeBit cexp hexp sched hT mcsteps svN0 nbs hnb orders rands k hk hu

theorem C3_witness :
    decodeBit 0 (msAnnealRun expQ [1] 1 [0] [[(0, 1)]] (fun _ => [0]) (fun _ _ => 1/2))
      = Anneal expQ [1] 1 (decodeBit 0 [0]) [[(0, 1)]] (fun _ => [0]) (fun _ => 1/2) :=
  C3_multispin_matches_sequential expQ expQ_ge_one [1] (by decide) 1 [0]
    [[(0, 1)]] (by decide) (fun _ => [0]) (fun _ _ => 1/2) 0 (by decide)
    (fun _ => by norm_num)

/-- C4: the per-spin update of the parallel classical annealer is
mathematically identical to the sequential one: for the same spin
vector, neighbor list, positive temperature and uniform draw from
[0,1), both compute the same ediff and make the same accept/reject
decision, and the whole parallel run equals the sequential run with the
fixed index-ascending visitation order in place of the randomized
orders. -/
theorem C4_parallel_update_matches_sequential (cexp : ℚ → ℚ)
    (hexp : ∀ y, 0 ≤ y → 1 ≤ cexp y) :
    (∀ (sv : List ℚ) (sidx : ℕ) (pairs : List (ℕ × ℚ)),
        parallelEdiff sv sidx pairs = annealEdiff sv sidx pairs)
    ∧ (∀ e T u : ℚ, 0 < T → u < 1 →
        parallelAcceptB cexp e T u = annealAcceptB cexp e T u)
    ∧ (∀ (nbs : List (List (ℕ × ℚ))) (T : ℚ) (sv : List ℚ) (sidx : ℕ) (u : ℚ),
        0 < T → u < 1 →
        parallelSpinStep cexp nbs T sv sidx u = annealSpinStep cexp nbs T sv sidx u)
    ∧ (∀ (sched : List ℚ) (mcsteps : ℕ) (sv : List ℚ)
        (nbs : List (List (ℕ × ℚ))) (draws : ℕ → ℚ),
        (∀ T ∈ sched, 0 < T) → (∀ c, draws c < 1) →
        Anneal_parallel cexp sched mcsteps sv nbs draws
          = Anneal cexp sched mcsteps sv nbs (fun _ => List.range sv.length) draws) :=
  ⟨fun sv sidx pairs => parallelEdiff_eq_anneal sv sidx pairs,
   fun e T u hT hu => parallelAccept_eq_anneal cexp hexp e T u hT hu,
   fun nbs T sv sidx u hT hu =>
     parallelSpinStep_eq_anneal cexp hexp nbs T hT sv sidx u hu,
   fun sched mcsteps sv nbs draws hT hu =>
     parallelRun_eq_anneal cexp hexp sched hT mcsteps sv nbs draws hu⟩

theorem C4_witness :
    Anneal_parallel expQ [1] 1 [1, -1] [[(1, 1)], [(0, 1)]] (fun _ => 1/2)
      = Anneal expQ [1] 1 [1, -1] [[(1, 1)], [(0, 1)]]
          (fun _ => List.range 2) (fun _ => 1/2) :=
  (C4_parallel_update_matches_sequential expQ expQ_ge_one).2.2.2
    [1] 1 [1, -1] [[(1, 1)], [(0, 1)]] (fun _ => 1/2)
    (by decide) (fun _ => by norm_num)

theorem annealSpinStep_length (cexp : ℚ → ℚ) (nbs : List (List (ℕ × ℚ)))
    (T : ℚ) (sv : List ℚ) (sidx : ℕ) (u : ℚ) :
    (annealSpinStep cexp nbs T sv sidx u).length = sv.length := by
  rw [annealSpinStep]
  split
  · rw [List.length_set]
  · rfl

theorem Anneal_length (cexp : ℚ → ℚ) (sched : List ℚ) (mcsteps : ℕ)
    (sv : List ℚ) (nbs : List (List (ℕ × ℚ))) (orders : ℕ → List ℕ)
    (draws : ℕ → ℚ) :
    (Anneal cexp sched mcsteps sv nbs orders draws).length = sv.length := by
  rw [Anneal]
  refine foldl_inv (fun (st : List ℚ × ℕ × ℕ) => st.1.length = sv.length)
    _ ?_ sched (sv, 0, 0) rfl
  intro st T hst
  refine foldl_inv (fun (st : List ℚ × ℕ × ℕ) => st.1.length = sv.length)
    _ ?_ (List.range mcsteps) st hst
  intro st _ hst'
  rw [annealMCStep]
  rw [annealSweep]
  refine foldl_inv (fun (s : List ℚ × ℕ) => s.1.length = sv.length)
    _ ?_ (orders st.2.1) (st.1, st.2.2) hst'
  intro s sidx hs
  exact (annealSpinStep_length cexp nbs T s.1 sidx (draws s.2)).trans hs

set_option maxRecDepth 4000 in
/-- C5 (counterexample to the claim as stated): a zero-length schedule
is not a no-op for Anneal_multispin: the engine still packs and
unpacks the caller's matrix, so a configuration holding a -1 entry (the
-1/+1 spin representation) is rewritten rather than left unchanged. -/
theorem C5_counterexample :
    Anneal_multispin expQ [] 1 [[-1]] [] (fun _ => []) (fun _ _ => 0) ≠ [[-1]] := by
  decide

/-- C5 (amended): with a zero-length schedule Anneal, Anneal_parallel
and QuantumAnneal return the configuration unchanged; Anneal_multispin
instead rewrites the buffer to unpack(pack(input)), so its buffer is
restored exactly when the 64-row matrix already consists of 0/1
entries (the documented encoding), and is changed otherwise. -/
theorem C5_zero_schedule_amended (cexp perpJOf : ℚ → ℚ) (mcsteps : ℕ)
    (T : ℚ) (sv : List ℚ) (conf mat : List (List ℚ))
    (nbs : List (List (ℕ × ℚ))) (orders sliceOrders spinOrders : ℕ → List ℕ)
    (draws : ℕ → ℚ) (rands : ℕ → ℕ → ℚ) :
    Anneal cexp [] mcsteps sv nbs orders draws = sv
    ∧ Anneal_parallel cexp [] mcsteps sv nbs draws = sv
    ∧ QuantumAnneal cexp perpJOf [] mcsteps T conf nbs sliceOrders spinOrders draws
        = conf
    ∧ Anneal_multispin cexp [] mcsteps mat nbs orders rands
        = unpackInto mat (packMat mat (mat.getD 0 []).length)
    ∧ (mat.length = 64 → (∀ row ∈ mat, row.length = (mat.getD 0 []).length) →
        (∀ row ∈ mat, ∀ x ∈ row, x = 0 ∨ x = 1) →
        Anneal_multispin cexp [] mcsteps mat nbs orders rands = mat) := by
  refine ⟨rfl, rfl, rfl, rfl, ?_⟩
  intro h64 hrow h01
  exact unpackInto_packMat mat _ h64 hrow h01

theorem C5_witness :
    Anneal_multispin expQ [] 3 (List.replicate 64 [1]) [] (fun _ => [])
      (fun _ _ => 0) = List.replicate 64 [1] :=
  (C5_zero_schedule_amended expQ expQ 3 1 [] [] (List.replicate 64 [1]) []
    (fun _ => []) (fun _ => []) (fun _ => []) (fun _ => 0)
    (fun _ _ => 0)).2.2.2.2 (by decide) (by decide) (by decide)

/-- C6 (the claim is right, the code is wrong): the final unpacking
loop of Anneal_multispin iterates sidx over xrange(svec.size + 1), so
the visited index set always contains the index equal to the number of
packed words, one beyond the valid range [0, nspins-1]; shown
concretely at nspins = 2 where index 2 is visited yet 2 < 2 fails. -/
theorem C6_unpack_loop_off_by_one :
    (∀ svN : List ℕ, svN.length ∈ unpackIndices svN)
    ∧ (2 : ℕ) ∈ unpackIndices [37, 41]
    ∧ ¬ ((2:ℕ) < ([37, 41] : List ℕ).length) := by
  refine ⟨?_, by decide, by decide⟩
  intro svN
  rw [unpackIndices]
  exact List.mem_range.mpr (Nat.lt_succ_self _)

/-- C7: for P >= 2 Trotter slices and any slice index tidx < P, the
quantum kernel couples the visited spin to that same spin in exactly
the two periodic-ring neighbor slices — tidx = 0 yields (P-1, 1),
tidx = P-1 yields (P-2, 0), anything else yields (tidx-1, tidx+1), the
ring formula ((tidx+P-1) mod P, (tidx+1) mod P) — and the quantum
energy difference adds -2 * spin * (jperp * tvec[slice]) for each of
the two slices on top of the intra-slice sum. -/
theorem C7_trotter_ring_neighbors (P tidx : ℕ) (hP : 2 ≤ P) (ht : tidx < P) :
    trotterNbs P tidx = ((tidx + P - 1) % P, (tidx + 1) % P)
    ∧ (tidx = 0 → trotterNbs P tidx = (P - 1, 1))
    ∧ (tidx = P - 1 → trotterNbs P tidx = (P - 2, 0))
    ∧ (tidx ≠ 0 → tidx ≠ P - 1 → trotterNbs P tidx = (tidx - 1, tidx + 1))
    ∧ ∀ (sv tvec : List ℚ) (sidx : ℕ) (pairs : List (ℕ × ℚ)) (jperp : ℚ),
        tvec.length = P →
        quantumEdiff sv tvec sidx tidx pairs jperp
          = quantumNbEdiff sv sidx pairs
            + -2 * sv.getD sidx 0 * (jperp * tvec.getD ((tidx + P - 1) % P) 0)
            + -2 * sv.getD sidx 0 * (jperp * tvec.getD ((tidx + 1) % P) 0) := by
  have hmod : trotterNbs P tidx = ((tidx + P - 1) % P, (tidx + 1) % P) := by
    rw [trotterNbs]
    by_cases h0 : tidx = 0
    · subst h0
      rw [if_pos rfl]
      have h1 : (0 + P - 1) % P = P - 1 := by
        have hz : 0 + P - 1 = P - 1 := by omega
        rw [hz]
        exact Nat.mod_eq_of_lt (by omega)
      have h2 : (0 + 1) % P = 1 := Nat.mod_eq_of_lt (by omega)
      rw [h1, h2]
    · rw [if_neg h0]
      by_cases hl : tidx = P - 1
      · rw [if_pos hl, hl]
        have h1 : (P - 1 + P - 1) % P = P - 2 := by
          have he : P - 1 + P - 1 = (P - 2) + P := by omega
          rw [he, Nat.add_mod_right]
          exact Nat.mod_eq_of_lt (by omega)
        have h2 : (P - 1 + 1) % P = 0 := by
          have he : P - 1 + 1 = P := by omega
          rw [he, Nat.mod_self]
        rw [h1, h2]
      · rw [if_neg hl]
        have h1 : (tidx + P - 1) % P = tidx - 1 := by
          have he : tidx + P - 1 = (tidx - 1) + P := by omega
          rw [he, Nat.add_mod_right]
          exact Nat.mod_eq_of_lt (by omega)
        have h2 : (tidx + 1) % P = tidx + 1 := by
          refine Nat.mod_eq_of_lt ?_
          rcases Nat.lt_or_ge (tidx + 1) P with hlt | hge
          · exact hlt
          · exact absurd (by omega : tidx = P - 1) hl
        rw [h1, h2]
  refine ⟨hmod, ?_, ?_, ?_, ?_⟩
  · intro h0; rw [trotterNbs, if_pos h0]
  · intro hl
    have h0 : tidx ≠ 0 := by omega
    rw [trotterNbs, if_neg h0, if_pos hl]
  · intro h0 hl; rw [trotterNbs, if_neg h0, if_neg hl]
  · intro sv tvec sidx pairs jperp hlen
    rw [quantumEdiff, hlen, hmod]

theorem C7_witness :
    trotterNbs 4 0 = (3, 1) ∧ trotterNbs 4 3 = (2, 0) :=
  ⟨(C7_trotter_ring_neighbors 4 0 (by decide) (by decide)).2.1 rfl,
   (C7_trotter_ring_neighbors 4 3 (by decide) (by decide)).2.2.1 rfl⟩

/-- C8: when every entry of the initial configuration is exactly +1 or
-1, every entry is exactly +1 or -1 after any single spin visit and
after the whole run, for the classical sequential annealer and for the
quantum annealer: each update either leaves an entry unchanged or
multiplies it by -1 in place, and no other mutation occurs. -/
theorem C8_spins_stay_pm1 (cexp perpJOf : ℚ → ℚ) (sched qsched : List ℚ)
    (mcsteps mcSteps : ℕ) (T : ℚ) (sv : List ℚ) (conf : List (List ℚ))
    (nbs : List (List (ℕ × ℚ))) (orders sliceOrders spinOrders : ℕ → List ℕ)
    (draws qdraws : ℕ → ℚ)
    (hsv : ∀ x ∈ sv, isPM1 x) (hconf : ∀ row ∈ conf, ∀ x ∈ row, isPM1 x) :
    (∀ (T' : ℚ) (sidx : ℕ) (u : ℚ),
        ∀ x ∈ annealSpinStep cexp nbs T' sv sidx u, isPM1 x)
    ∧ (∀ x ∈ Anneal cexp sched mcsteps sv nbs orders draws, isPM1 x)
    ∧ (∀ (jp : ℚ) (islice ispin : ℕ) (u : ℚ),
        ∀ row ∈ qSpinStep cexp nbs jp T islice conf ispin u, ∀ x ∈ row, isPM1 x)
    ∧ (∀ row ∈ QuantumAnneal cexp perpJOf qsched mcSteps T conf nbs
          sliceOrders spinOrders qdraws, ∀ x ∈ row, isPM1 x) :=
  ⟨fun T' sidx u => annealSpinStep_pm1 cexp nbs T' sv sidx u hsv,
   Anneal_pm1 cexp sched mcsteps sv nbs orders draws hsv,
   fun jp islice ispin u => qSpinStep_pm1 cexp nbs jp T islice conf ispin u hconf,
   QuantumAnneal_pm1 cexp perpJOf qsched mcSteps T conf nbs sliceOrders
     spinOrders qdraws hconf⟩

theorem C8_witness :
    isPM1 ((Anneal expQ [1] 1 [1, -1] [[(1, 1)], [(0, 1)]]
      (fun _ => [0, 1]) (fun _ => 1/2)).getD 0 0) :=
  (C8_spins_stay_pm1 expQ expQ [1] [1] 1 1 1 [1, -1] [[1], [-1]]
    [[(1, 1)], [(0, 1)]] (fun _ => [0, 1]) (fun _ => [0]) (fun _ => [0, 1])
    (fun _ => 1/2) (fun _ => 1/2) (by decide) (by decide)).2.1 _
    (getD_mem_of_lt _ 0 0
      (by rw [Anneal_length]; decide))

/-- C9 (counterexample to the claim as stated): no annealer entry point
rejects eagerly on a non-positive sweep count: Anneal and
Anneal_parallel called with zero Monte Carlo steps and a nonempty
schedule return silently with the configuration unmodified instead of
failing before the sweeps. -/
theorem C9_counterexample :
    Anneal expQ [1] 0 [1, -1] [] (fun _ => []) (fun _ => 0) = [1, -1]
    ∧ Anneal_parallel expQ [1] 0 [1, -1] [] (fun _ => 0) = [1, -1] :=
  ⟨Anneal_zero_steps expQ [1] [1, -1] [] (fun _ => []) (fun _ => 0),
   Anneal_parallel_zero_steps expQ [1] [1, -1] [] (fun _ => 0)⟩

/-- C9 (amended): the entry points perform no validation of their
counts: with sweep count 0 (the model of a non-positive count — the
xrange of a non-positive bound is empty) every engine returns silently,
Anneal, Anneal_parallel and QuantumAnneal leaving the caller's
configuration unchanged for any schedule, and Anneal_multispin still
performing its pack/unpack rewriting of the matrix. -/
theorem C9_no_validation_amended (cexp perpJOf : ℚ → ℚ) (sched : List ℚ)
    (T : ℚ) (sv : List ℚ) (conf mat : List (List ℚ))
    (nbs : List (List (ℕ × ℚ))) (orders sliceOrders spinOrders : ℕ → List ℕ)
    (draws : ℕ → ℚ) (rands : ℕ → ℕ → ℚ) :
    Anneal cexp sched 0 sv nbs orders draws = sv
    ∧ Anneal_parallel cexp sched 0 sv nbs draws = sv
    ∧ QuantumAnneal cexp perpJOf sched 0 T conf nbs sliceOrders spinOrders draws
        = conf
    ∧ Anneal_multispin cexp sched 0 mat nbs orders rands
        = unpackInto mat (packMat mat (mat.getD 0 []).length) := by
  refine ⟨Anneal_zero_steps cexp sched sv nbs orders draws,
    Anneal_parallel_zero_steps cexp sched sv nbs draws,
    QuantumAnneal_zero_steps cexp perpJOf sched T conf nbs sliceOrders
      spinOrders draws, ?_⟩
  simp only [Anneal_multispin]
  rw [msAnnealRun_zero_steps]

set_option maxRecDepth 4000 in
/-- C10: the entry packing of Anneal_multispin sets the bit for replica
k of spin si exactly when svec_mat[k, si] is nonzero (so any nonzero
value, -1.0 included, encodes like +1.0), the exit unpacking writes
back only the values 0.0 and 1.0, packing followed by unpacking
restores the input exactly when the 64-row matrix holds only 0/1
entries, and a matrix using the -1/+1 representation is not restored. -/
theorem C10_pack_then_unpack (mat : List (List ℚ)) (n : ℕ)
    (h64 : mat.length = 64) (hrow : ∀ row ∈ mat, row.length = n) :
    (∀ si k : ℕ, si < n → k < 64 →
        Nat.testBit (packWord (matColumn mat si)) (63 - k)
          = decide ((mat.getD k []).getD si 0 ≠ 0))
    ∧ (∀ col : List ℚ,
        packWord col = packWord (col.map (fun x => if x = 0 then (0:ℚ) else 1)))
    ∧ (∀ (mat0 : List (List ℚ)) (svN : List ℕ) (a b : ℕ),
        ((unpackInto mat0 svN).getD a []).getD b 0 = (mat0.getD a []).getD b 0
          ∨ ((unpackInto mat0 svN).getD a []).getD b 0 = 0
          ∨ ((unpackInto mat0 svN).getD a []).getD b 0 = 1)
    ∧ ((∀ row ∈ mat, ∀ x ∈ row, x = 0 ∨ x = 1) →
        unpackInto mat (packMat mat n) = mat)
    ∧ unpackInto [[-1]] (packMat [[-1]] 1) ≠ [[-1]] := by
  refine ⟨?_, fun col => packWord_normalize col,
    fun mat0 svN a b => unpackInto_values mat0 svN a b,
    fun h01 => unpackInto_packMat mat n h64 hrow h01, by decide⟩
  intro si k hsi hk
  have hcollen : (matColumn mat si).length = 64 := by
    rw [matColumn, List.length_map, h64]
  have h63 : (63:ℕ) - k = (matColumn mat si).length - 1 - k := by rw [hcollen]
  rw [h63, packWord_testBit _ k (by rw [hcollen]; exact hk)]
  have hcol : (matColumn mat si).getD k 0 = (mat.getD k []).getD si 0 := by
    rw [matColumn, getD_map _ _ k 0 [] (by rw [h64]; exact hk)]
  rw [hcol]

set_option maxRecDepth 4000 in
theorem C10_witness :
    unpackInto (List.replicate 64 [1]) (packMat (List.replicate 64 [1]) 1)
      = List.replicate 64 [1] :=
  (C10_pack_then_unpack (List.replicate 64 [1]) 1 (by decide)
    (by decide)).2.2.2.1 (by decide)
